import Mathlib

/-!
A shallow embedding of the ASIC published-notices scraper
(`scrape_asic.py`) and proofs about its filtering, deduplication,
state-retention and extraction logic.

Modelling conventions:
* Python dicts become association lists built from the empty list by
  `dictSet` (replace in place, else append), so keys stay unique and
  insertion order is preserved, exactly as in CPython.
* Python `datetime` values are UTC throughout the scraper, so they are
  modelled as whole days since an epoch plus seconds within the day.
* ISO-8601 UTC timestamp strings compare lexicographically exactly as
  their times compare chronologically, so seen-store timestamps are
  modelled as integer epoch seconds with the same `>=` comparison.
* HTML is modelled as a tree of elements and text nodes; `get_text`
  concatenates (optionally trimmed) text segments as BeautifulSoup does.
-/

namespace PoliMail

/-- Python `s.strip()`: remove leading and trailing whitespace. -/
def pyStrip (s : String) : String :=
  String.mk
    (((s.toList.dropWhile Char.isWhitespace).reverse.dropWhile Char.isWhitespace).reverse)

/-- Python `s.rstrip(":")`: remove every trailing colon. -/
def rstripColons (s : String) : String :=
  String.mk ((s.toList.reverse.dropWhile (fun c => c = ':')).reverse)

/-- Does `hay` start with `needle`? (character-list version). -/
def startsWithList : List Char → List Char → Bool
  | _, [] => true
  | [], _ :: _ => false
  | h :: hs, n :: ns => h == n && startsWithList hs ns

/-- Does `hay` contain `needle` as a contiguous substring? -/
def containsList : List Char → List Char → Bool
  | [], needle => needle.isEmpty
  | h :: hs, needle => startsWithList (h :: hs) needle || containsList hs needle

/-- Python `needle in hay` on strings. -/
def strContains (hay needle : String) : Bool :=
  containsList hay.toList needle.toList

/-- Python dict assignment `d[k] = v` on an association list with unique
keys: replace the first binding of `k` in place, otherwise append. -/
def dictSet {β : Type} : List (String × β) → String → β → List (String × β)
  | [], k, v => [(k, v)]
  | kv :: m, k, v => if kv.1 == k then (k, v) :: m else kv :: dictSet m k v

/-- Python `d.get(k)` / `d[k]` lookup. -/
def dictFind {β : Type} (m : List (String × β)) (k : String) : Option β :=
  (m.find? (fun kv => kv.1 == k)).map (fun kv => kv.2)

/-- Python `k in d`. -/
def dictHasKey {β : Type} (m : List (String × β)) (k : String) : Bool :=
  m.any (fun kv => kv.1 == k)

/-- Python `d.get(k, dflt)`. -/
def dictGetD (m : List (String × String)) (k dflt : String) : String :=
  match dictFind m k with
  | some v => v
  | none => dflt

/-- A naive Python `datetime`, abstracted to whole days since an epoch and
seconds within the day (the scraper works in UTC only, and strips `tzinfo`
before every comparison it makes). -/
structure PyDateTime where
  day : Int
  sec : Int
deriving DecidableEq

/-- Python `datetime` comparison `a <= b` (lexicographic on day, then time). -/
def pyLE (a b : PyDateTime) : Bool :=
  decide (a.day < b.day) || (decide (a.day = b.day) && decide (a.sec ≤ b.sec))

/-- One company of a listing block, as built by `scrape_listing`
(scrape_asic.py:232). -/
structure Company where
  name : String
  trading_as : String
  acn : String
  status : String
deriving DecidableEq

/-- One notice stub, as built by `scrape_listing` (scrape_asic.py:242-247).
The mutable `detail` enrichment plays no role in the claims below and is
omitted; `date` is the parsed publication date (midnight, `sec = 0`, since
both accepted date formats carry no time of day). -/
structure Notice where
  date : PyDateTime
  date_str : String
  notice_type : String
  companies : List Company
  view_link : String
  search_term : String
deriving DecidableEq

/-- Model of `notice_key` (scrape_asic.py:71-73).  Python's `or` takes the fallback
exactly when `view_link` is the empty string; the fallback interpolates the
joined company ACNs after the date text and notice type. -/
def notice_key (n : Notice) : String :=
  if n.view_link ≠ "" then n.view_link
  else n.date_str ++ "|" ++ n.notice_type ++ "|" ++
    String.intercalate "|" (n.companies.map Company.acn)

/-- The key computed inline by `deduplicate` (scrape_asic.py:371):
`n["view_link"] or f"{n['date_str']}|{n['notice_type']}"`. -/
def dedupKey (n : Notice) : String :=
  if n.view_link ≠ "" then n.view_link else n.date_str ++ "|" ++ n.notice_type

/-- The identity key exactly as the specification words it: "detail link if
present, else a composite of raw date text + notice type". -/
def specIdentityKey (n : Notice) : String :=
  if n.view_link ≠ "" then n.view_link else n.date_str ++ "|" ++ n.notice_type

/-- Worker for `deduplicate`, with the Python `set` of already-seen keys
modelled as a list. -/
def dedupGo (seen : List String) : List Notice → List Notice
  | [] => []
  | n :: ns =>
    if dedupKey n ∈ seen then dedupGo seen ns
    else n :: dedupGo (dedupKey n :: seen) ns

/-- Model of `deduplicate` (scrape_asic.py:369-371). -/
def deduplicate (ns : List Notice) : List Notice :=
  dedupGo [] ns

/-- First-occurrence deduplication as the specification words it: keep the
first notice carrying each key and discard every later notice with the same
key. -/
def firstWins (ns : List Notice) : List Notice :=
  match ns with
  | [] => []
  | n :: rest =>
    n :: firstWins (rest.filter (fun m => decide (dedupKey m ≠ dedupKey n)))
termination_by ns.length
decreasing_by
  simp only [List.length_cons]
  exact Nat.lt_succ_of_le (List.length_filter_le _ _)

theorem dedupGo_eq_firstWins_filter (ns : List Notice) :
    ∀ seen : List String,
      dedupGo seen ns = firstWins (ns.filter (fun m => decide (dedupKey m ∉ seen))) := by
  induction ns with
  | nil => intro seen; simp [dedupGo, firstWins]
  | cons n rest ih =>
    intro seen
    by_cases hmem : dedupKey n ∈ seen
    · simp only [dedupGo, hmem, if_true, List.filter_cons, hmem,
        not_true_eq_false, decide_False, Bool.false_eq_true, if_false]
      exact ih seen
    · simp only [dedupGo, hmem, if_false, List.filter_cons, hmem, not_false_eq_true,
        decide_True, if_true, firstWins]
      rw [ih (dedupKey n :: seen), List.filter_filter]
      congr 2
      apply List.filter_congr
      intro m _
      simp [List.mem_cons, not_or, and_comm]

theorem mem_of_mem_firstWins :
    ∀ (ns : List Notice) (m : Notice), m ∈ firstWins ns → m ∈ ns
  | [], m, h => by rw [firstWins] at h; exact absurd h (List.not_mem_nil m)
  | n :: rest, m, h => by
    rw [firstWins] at h
    rcases List.mem_cons.mp h with h1 | h2
    · exact h1 ▸ List.mem_cons_self _ _
    · exact List.mem_cons_of_mem _
        (List.mem_of_mem_filter (mem_of_mem_firstWins _ m h2))
termination_by ns => ns.length
decreasing_by
  simp only [List.length_cons]
  exact Nat.lt_succ_of_le (List.length_filter_le _ _)

theorem firstWins_idem : ∀ ns : List Notice, firstWins (firstWins ns) = firstWins ns
  | [] => by simp [firstWins]
  | n :: rest => by
    rw [firstWins, firstWins]
    congr 1
    have hf : (firstWins (rest.filter (fun m => decide (dedupKey m ≠ dedupKey n)))).filter
          (fun m => decide (dedupKey m ≠ dedupKey n)) =
        firstWins (rest.filter (fun m => decide (dedupKey m ≠ dedupKey n))) := by
      apply List.filter_eq_self.mpr
      intro m hm
      exact (List.mem_filter.mp (mem_of_mem_firstWins _ _ hm)).2
    rw [hf]
    exact firstWins_idem (rest.filter (fun m => decide (dedupKey m ≠ dedupKey n)))
termination_by ns => ns.length
decreasing_by
  simp only [List.length_cons]
  exact Nat.lt_succ_of_le (List.length_filter_le _ _)

theorem deduplicate_eq_firstWins (ns : List Notice) : deduplicate ns = firstWins ns := by
  have h := dedupGo_eq_firstWins_filter ns []
  simp only [List.not_mem_nil, not_false_eq_true, decide_True, List.filter_true] at h
  exact h

/-- A notice without a detail link, naming one company with an ACN. -/
def exNoticeNoLink : Notice :=
  { date := { day := 0, sec := 0 }, date_str := "d", notice_type := "t",
    companies := [{ name := "n", trading_as := "", acn := "123", status := "" }],
    view_link := "", search_term := "solar" }

/-- A notice that does carry a detail link. -/
def exNoticeWithLink : Notice :=
  { date := { day := 0, sec := 0 }, date_str := "d", notice_type := "t",
    companies := [], view_link := "https://example.org/notice-details/9",
    search_term := "solar" }

/-- C1 counterexample: with no detail link present, the seen-store key
`notice_key` additionally interpolates the companies' ACNs, so it differs
from the spec's "raw date text + notice type" composite (which is what the
inline deduplication key uses). -/
theorem C1_counterexample :
    notice_key exNoticeNoLink ≠ specIdentityKey exNoticeNoLink ∧
    dedupKey exNoticeNoLink = specIdentityKey exNoticeNoLink := by
  constructor
  · decide
  · rfl

/-- C1 amended: the cross-term deduplication key is the detail link when
present, else raw date text + notice type, and deduplication keeps the first
occurrence of each key; the seen-store key `notice_key` uses the detail link
when present, but its fallback appends the pipe-joined company ACNs to the
date-text/notice-type composite. -/
theorem C1_identity_key_amended :
    (∀ n : Notice, dedupKey n = specIdentityKey n) ∧
    (∀ n : Notice, n.view_link ≠ "" → notice_key n = n.view_link) ∧
    (∀ n : Notice, n.view_link = "" →
      notice_key n = n.date_str ++ "|" ++ n.notice_type ++ "|" ++
        String.intercalate "|" (n.companies.map Company.acn)) ∧
    (∀ ns : List Notice, deduplicate ns = firstWins ns) := by
  refine ⟨fun n => rfl, fun n h => ?_, fun n h => ?_, deduplicate_eq_firstWins⟩
  · simp [notice_key, h]
  · simp [notice_key, h]

theorem C1_identity_key_amended_witness :
    notice_key exNoticeWithLink = exNoticeWithLink.view_link ∧
    notice_key exNoticeNoLink = "d|t|123" := by
  constructor
  · exact C1_identity_key_amended.2.1 exNoticeWithLink (by decide)
  · exact (C1_identity_key_amended.2.2.1 exNoticeNoLink (by decide)).trans (by decide)

/-- C6: deduplication is idempotent — applying `deduplicate` to its own
output returns that output unchanged. -/
theorem C6_deduplicate_idempotent :
    ∀ ns : List Notice, deduplicate (deduplicate ns) = deduplicate ns := by
  intro ns
  rw [deduplicate_eq_firstWins, deduplicate_eq_firstWins, firstWins_idem]

theorem dictFind_dictSet {β : Type} (m : List (String × β)) (k : String) (v : β)
    (k' : String) :
    dictFind (dictSet m k v) k' = if k == k' then some v else dictFind m k' := by
  induction m with
  | nil =>
    by_cases h : k = k'
    · simp [dictSet, dictFind, List.find?_cons, beq_iff_eq.mpr h]
    · simp [dictSet, dictFind, List.find?_cons, beq_eq_false_iff_ne.mpr h]
  | cons kv m ih =>
    by_cases hk : kv.1 = k
    · have hset : dictSet (kv :: m) k v = (k, v) :: m := by
        simp [dictSet, beq_iff_eq.mpr hk]
      rw [hset]
      by_cases h : k = k'
      · simp [dictFind, List.find?_cons, beq_iff_eq.mpr h]
      · have hkv : (kv.1 == k') = false :=
          beq_eq_false_iff_ne.mpr (fun he => h (hk.symm.trans he))
        simp [dictFind, List.find?_cons, beq_eq_false_iff_ne.mpr h, hkv]
    · have hset : dictSet (kv :: m) k v = kv :: dictSet m k v := by
        simp [dictSet, beq_eq_false_iff_ne.mpr hk]
      rw [hset]
      by_cases hkv : kv.1 = k'
      · have hne : (k == k') = false :=
          beq_eq_false_iff_ne.mpr (fun he => hk (hkv.trans he.symm))
        simp [dictFind, List.find?_cons, beq_iff_eq.mpr hkv, hne]
      · have hb : (kv.1 == k') = false := beq_eq_false_iff_ne.mpr hkv
        have hstep : dictFind (kv :: dictSet m k v) k' = dictFind (dictSet m k v) k' := by
          simp [dictFind, List.find?_cons, hb]
        have hstep2 : dictFind (kv :: m) k' = dictFind m k' := by
          simp [dictFind, List.find?_cons, hb]
        rw [hstep, hstep2, ih]

/-- seconds per day, for `timedelta(days = n)` arithmetic on epoch-second
timestamps. -/
def secondsPerDay : Int := 86400

/-- Constant `SEEN_MAX_AGE_DAYS` (scrape_asic.py:44). -/
def SEEN_MAX_AGE_DAYS : Int := 30

/-- The pruning performed by `save_seen` (scrape_asic.py:63-68): keep exactly
the entries whose timestamp satisfies `v >= cutoff` with
`cutoff = now - timedelta(days=SEEN_MAX_AGE_DAYS)`.  The source compares
ISO-8601 UTC strings, whose lexicographic order agrees with chronological
order, so timestamps are modelled as integer epoch seconds. -/
def save_seen_pruned (seen : List (String × Int)) (now : Int) : List (String × Int) :=
  let cutoff := now - SEEN_MAX_AGE_DAYS * secondsPerDay
  seen.filter (fun kv => decide (cutoff ≤ kv.2))

/-- Model of `is_recent` (scrape_asic.py:365-367): the cutoff is now minus seven days
with the time of day zeroed (and `tzinfo` stripped); a notice is recent when
its publication date is on or after the cutoff. -/
def is_recent (now : PyDateTime) (n : Notice) : Bool :=
  let cutoff : PyDateTime := { day := now.day - 7, sec := 0 }
  pyLE cutoff n.date

/-- The cutoff as the specification words it: the current UTC date with
time-of-day zeroed, taken back seven whole days. -/
def specRecencyCutoff (now : PyDateTime) : PyDateTime :=
  let todayMidnight : PyDateTime := { day := now.day, sec := 0 }
  { todayMidnight with day := todayMidnight.day - 7 }

/-- Line 576 of `main`: `recent = [n for n in all_notices if is_recent(n)]`,
applied to the deduplicated notice list. -/
def recentNotices (now : PyDateTime) (ns : List Notice) : List Notice :=
  ns.filter (fun n => is_recent now n)

/-- Line 580 of `main`:
`new_notices = [n for n in recent if notice_key(n) not in seen]`. -/
def newNotices (now : PyDateTime) (ns : List Notice) (seen : List (String × Int)) :
    List Notice :=
  (recentNotices now ns).filter (fun n => !(dictHasKey seen (notice_key n)))

/-- Lines 598-600 of `main`: stamp every recent notice's key with the current
timestamp, `seen[notice_key(n)] = ts_now`. -/
def refreshSeen (seen : List (String × Int)) (recent : List Notice) (tsNow : Int) :
    List (String × Int) :=
  recent.foldl (fun s n => dictSet s (notice_key n) tsNow) seen

theorem dictFind_refreshSeen (recent : List Notice) :
    ∀ (seen : List (String × Int)) (tsNow : Int) (k : String),
      dictFind (refreshSeen seen recent tsNow) k =
        if recent.any (fun n => notice_key n == k) then some tsNow
        else dictFind seen k := by
  induction recent with
  | nil => intro seen tsNow k; simp [refreshSeen]
  | cons n rest ih =>
    intro seen tsNow k
    have hstep : refreshSeen seen (n :: rest) tsNow =
        refreshSeen (dictSet seen (notice_key n) tsNow) rest tsNow := rfl
    rw [hstep, ih, dictFind_dictSet]
    by_cases hrest : rest.any (fun m => notice_key m == k)
    · simp [hrest, List.any_cons]
    · by_cases hn : notice_key n = k <;>
        simp [hrest, List.any_cons, hn]

/-- C2: for every filter invocation, the reported set is exactly the
recency-filtered notices whose key is absent from the seen store, the
persisted store maps every recency-filtered key to the current timestamp
(leaving all other keys untouched), and the reported set is a sublist of the
persisted (recency-filtered) set, itself a sublist of the input. -/
theorem C2_filter_invariants :
    ∀ (ns : List Notice) (seen : List (String × Int)) (now : PyDateTime) (tsNow : Int),
      newNotices now ns seen =
        (recentNotices now ns).filter (fun n => !(dictHasKey seen (notice_key n))) ∧
      (∀ k, dictFind (refreshSeen seen (recentNotices now ns) tsNow) k =
        if (recentNotices now ns).any (fun n => notice_key n == k) then some tsNow
        else dictFind seen k) ∧
      (newNotices now ns seen).Sublist (recentNotices now ns) ∧
      (recentNotices now ns).Sublist ns := by
  intro ns seen now tsNow
  refine ⟨rfl, fun k => dictFind_refreshSeen _ seen tsNow k, ?_, ?_⟩
  · exact List.filter_sublist _
  · exact List.filter_sublist _

/-- C4: `save_seen` keeps exactly the entries whose timestamp lies at or
after the cutoff 30 days before the save time; strictly older entries are
purged and entries within the window are kept. -/
theorem C4_save_seen_retention :
    ∀ (seen : List (String × Int)) (now : Int) (e : String × Int),
      (e ∈ save_seen_pruned seen now ↔
        e ∈ seen ∧ now - SEEN_MAX_AGE_DAYS * secondsPerDay ≤ e.2) ∧
      (e.2 < now - SEEN_MAX_AGE_DAYS * secondsPerDay → e ∉ save_seen_pruned seen now) ∧
      (e ∈ seen → now - SEEN_MAX_AGE_DAYS * secondsPerDay ≤ e.2 →
        e ∈ save_seen_pruned seen now) := by
  intro seen now e
  have hmem : e ∈ save_seen_pruned seen now ↔
      e ∈ seen ∧ now - SEEN_MAX_AGE_DAYS * secondsPerDay ≤ e.2 := by
    simp [save_seen_pruned, List.mem_filter]
  refine ⟨hmem, fun hold hin => ?_, fun hin hle => hmem.mpr ⟨hin, hle⟩⟩
  exact absurd (hmem.mp hin).2 (not_le.mpr hold)

theorem C4_save_seen_retention_witness :
    ("fresh", (100 : Int)) ∈ save_seen_pruned [("fresh", 100), ("stale", 4)] 2592005 ∧
    ("stale", (4 : Int)) ∉ save_seen_pruned [("fresh", 100), ("stale", 4)] 2592005 := by
  constructor
  · exact (C4_save_seen_retention [("fresh", 100), ("stale", 4)] 2592005
      ("fresh", 100)).2.2 (by decide) (by decide)
  · exact (C4_save_seen_retention [("fresh", 100), ("stale", 4)] 2592005
      ("stale", 4)).2.1 (by decide)

/-- C5: `is_recent` accepts a notice exactly when its publication date is on
or after the cutoff obtained by zeroing the time of day of the current UTC
instant and going back seven whole days; a notice dated exactly at the
cutoff is accepted, a strictly older one is rejected, and a rejected notice
appears neither in the recency-filtered set (whose keys get their timestamps
refreshed) nor in the reported set. -/
theorem C5_is_recent_window :
    ∀ (now : PyDateTime) (n : Notice),
      (is_recent now n = pyLE (specRecencyCutoff now) n.date) ∧
      (n.date.sec = 0 → (is_recent now n = true ↔ now.day - 7 ≤ n.date.day)) ∧
      (n.date = specRecencyCutoff now → is_recent now n = true) ∧
      (∀ (ns : List Notice) (seen : List (String × Int)),
        is_recent now n = false →
          n ∉ recentNotices now ns ∧ n ∉ newNotices now ns seen) := by
  intro now n
  refine ⟨rfl, fun hsec => ?_, fun heq => ?_, fun ns seen hnot => ⟨?_, ?_⟩⟩
  · simp [is_recent, pyLE, hsec]
    omega
  · simp [is_recent, pyLE, heq, specRecencyCutoff]
  · intro hmem
    have := (List.mem_filter.mp hmem).2
    rw [hnot] at this
    exact Bool.false_ne_true this
  · intro hmem
    have hrec : n ∈ recentNotices now ns :=
      List.mem_of_mem_filter hmem
    have := (List.mem_filter.mp hrec).2
    rw [hnot] at this
    exact Bool.false_ne_true this

theorem C5_is_recent_window_witness :
    is_recent { day := 100, sec := 3600 }
        { exNoticeNoLink with date := { day := 93, sec := 0 } } = true ∧
    is_recent { day := 100, sec := 3600 }
        { exNoticeNoLink with date := { day := 92, sec := 0 } } = false := by
  constructor
  · exact (C5_is_recent_window { day := 100, sec := 3600 }
      { exNoticeNoLink with date := { day := 93, sec := 0 } }).2.2.1 (by decide)
  · have h := (C5_is_recent_window { day := 100, sec := 3600 }
      { exNoticeNoLink with date := { day := 92, sec := 0 } }).2.1 rfl
    exact Bool.eq_false_iff.mpr (mt h.mp (by decide))

/-- The outcome of the attempted SMTP session in `send_email`. -/
inductive SmtpOutcome where
  | success
  | authError
  | otherError
deriving DecidableEq

/-- How a `send_email` call ends. -/
inductive SendResult where
  | skippedNoCreds
  | sent
  | exited (code : Nat)
deriving DecidableEq

/-- Model of `send_email` (scrape_asic.py:502-519): read and strip the two Gmail
environment variables; when either is empty, print a warning and return
normally; otherwise attempt the send, and on `SMTPAuthenticationError` or on
ANY other exception call `sys.exit(1)`. -/
def send_email (gmailAddress gmailAppPassword : String) (outcome : SmtpOutcome) :
    SendResult :=
  let ga := pyStrip gmailAddress
  let gp := pyStrip gmailAppPassword
  if ga = "" ∨ gp = "" then SendResult.skippedNoCreds
  else
    match outcome with
    | SmtpOutcome.success => SendResult.sent
    | SmtpOutcome.authError => SendResult.exited 1
    | SmtpOutcome.otherError => SendResult.exited 1

/-- C3 counterexample: with credentials present, a delivery failure that is
NOT an authentication error (the `except Exception` arm at
scrape_asic.py:518-519) also terminates the run with exit status 1, so the
authentication error is not the only delivery failure producing a non-zero
exit status. -/
theorem C3_counterexample :
    send_email "user@example.com" "app-password" SmtpOutcome.otherError =
      SendResult.exited 1 ∧
    SmtpOutcome.otherError ≠ SmtpOutcome.authError := by
  constructor
  · rfl
  · intro h
    exact SmtpOutcome.noConfusion h

/-- C3 amended: absent (blank after stripping) credentials skip delivery
silently with a normal return; with credentials present a successful send
returns normally, and EVERY failure during the attempted send — the
authentication error and any other exception alike — terminates the run
with exit status 1. -/
theorem C3_send_email_amended :
    ∀ (ga gp : String) (o : SmtpOutcome),
      (pyStrip ga = "" ∨ pyStrip gp = "" →
        send_email ga gp o = SendResult.skippedNoCreds) ∧
      (pyStrip ga ≠ "" → pyStrip gp ≠ "" → o = SmtpOutcome.success →
        send_email ga gp o = SendResult.sent) ∧
      (pyStrip ga ≠ "" → pyStrip gp ≠ "" → o ≠ SmtpOutcome.success →
        send_email ga gp o = SendResult.exited 1) := by
  intro ga gp o
  refine ⟨fun h => ?_, fun h1 h2 h3 => ?_, fun h1 h2 h3 => ?_⟩
  · simp [send_email, h]
  · subst h3; simp [send_email, h1, h2]
  · cases o with
    | success => exact absurd rfl h3
    | authError => simp [send_email, h1, h2]
    | otherError => simp [send_email, h1, h2]

theorem C3_send_email_amended_witness :
    send_email "" "app-password" SmtpOutcome.success = SendResult.skippedNoCreds ∧
    send_email "user@example.com" "app-password" SmtpOutcome.success = SendResult.sent ∧
    send_email "user@example.com" "app-password" SmtpOutcome.authError =
      SendResult.exited 1 := by
  refine ⟨?_, ?_, ?_⟩
  · exact (C3_send_email_amended "" "app-password" SmtpOutcome.success).1
      (Or.inl (by decide))
  · exact (C3_send_email_amended "user@example.com" "app-password"
      SmtpOutcome.success).2.1 (by decide) (by decide) rfl
  · exact (C3_send_email_amended "user@example.com" "app-password"
      SmtpOutcome.authError).2.2 (by decide) (by decide) (by decide)

/-- One `<tr>`: the list of its `<td>` cell texts (a cell's
`get_text(strip=True)` is modelled by `pyStrip` of its raw text). -/
abbrev TableRow := List String

/-- One `<table>`: its rows. -/
abbrev HtmlTable := List TableRow

/-- The per-row step of `extract_table_pairs` (scrape_asic.py:259-265):
rows with exactly two cells contribute `data[key] = val` when both the
colon-normalized key and the value are non-empty; all other rows are
ignored. -/
def tableRowStep (data : List (String × String)) (row : TableRow) :
    List (String × String) :=
  match row with
  | [c0, c1] =>
    let key := rstripColons (pyStrip c0)
    let v := pyStrip c1
    if key ≠ "" ∧ v ≠ "" then dictSet data key v else data
  | _ => data

/-- Model of `extract_table_pairs` (scrape_asic.py:256-266). -/
def extract_table_pairs (tables : List HtmlTable) : List (String × String) :=
  tables.foldl (fun data table => table.foldl tableRowStep data) []

/-- The label/value pair a row contributes when it qualifies: exactly two
cells, both the normalized key and the value non-empty. -/
def rowPair (row : TableRow) : Option (String × String) :=
  match row with
  | [c0, c1] =>
    let key := rstripColons (pyStrip c0)
    let v := pyStrip c1
    if key ≠ "" ∧ v ≠ "" then some (key, v) else none
  | _ => none

theorem tableRowStep_eq (data : List (String × String)) (row : TableRow) :
    tableRowStep data row =
      match rowPair row with
      | some kv => dictSet data kv.1 kv.2
      | none => data := by
  match row with
  | [] => rfl
  | [c0] => rfl
  | [c0, c1] =>
    by_cases h : rstripColons (pyStrip c0) ≠ "" ∧ pyStrip c1 ≠ ""
    · simp [tableRowStep, rowPair, h]
    · simp [tableRowStep, rowPair, h]
  | c0 :: c1 :: c2 :: rest => rfl

theorem foldl_tableRowStep (rows : List TableRow) :
    ∀ data, rows.foldl tableRowStep data =
      (rows.filterMap rowPair).foldl (fun d kv => dictSet d kv.1 kv.2) data := by
  induction rows with
  | nil => intro data; rfl
  | cons r rest ih =>
    intro data
    rw [List.foldl_cons, tableRowStep_eq]
    cases hr : rowPair r with
    | none => simp only [List.filterMap_cons, hr]; exact ih data
    | some kv => simp only [List.filterMap_cons, hr, List.foldl_cons]; exact ih _

theorem extract_table_pairs_eq (tables : List HtmlTable) :
    extract_table_pairs tables =
      (tables.flatten.filterMap rowPair).foldl (fun d kv => dictSet d kv.1 kv.2) [] := by
  have h1 : extract_table_pairs tables = tables.flatten.foldl tableRowStep [] := by
    rw [extract_table_pairs, List.foldl_flatten]
  rw [h1, foldl_tableRowStep]

theorem dictFind_foldl_dictSet (pairs : List (String × String)) :
    ∀ (d : List (String × String)) (k : String),
      dictFind (pairs.foldl (fun d kv => dictSet d kv.1 kv.2) d) k =
        match pairs.reverse.find? (fun kv => kv.1 == k) with
        | some kv => some kv.2
        | none => dictFind d k := by
  induction pairs with
  | nil => intro d k; rfl
  | cons kv0 rest ih =>
    intro d k
    rw [List.foldl_cons, ih, List.reverse_cons, List.find?_append]
    cases hfind : rest.reverse.find? (fun kv => kv.1 == k) with
    | some kv => simp [hfind, Option.or]
    | none =>
      rw [dictFind_dictSet]
      by_cases hk : kv0.1 = k
      · simp [hfind, Option.or, List.find?_cons, beq_iff_eq.mpr hk]
      · simp [hfind, Option.or, List.find?_cons, beq_eq_false_iff_ne.mpr hk]

/-- C10: `extract_table_pairs` builds its map from exactly the qualifying
rows (two cells, non-empty normalized key and non-empty value; every other
row contributes nothing), and a lookup returns the value of the LAST
qualifying row carrying that label. -/
theorem C10_extract_table_pairs_lastwins :
    (∀ tables : List HtmlTable,
      extract_table_pairs tables =
        (tables.flatten.filterMap rowPair).foldl (fun d kv => dictSet d kv.1 kv.2) []) ∧
    (∀ (tables : List HtmlTable) (k : String),
      dictFind (extract_table_pairs tables) k =
        match (tables.flatten.filterMap rowPair).reverse.find? (fun kv => kv.1 == k) with
        | some kv => some kv.2
        | none => none) := by
  refine ⟨extract_table_pairs_eq, fun tables k => ?_⟩
  rw [extract_table_pairs_eq, dictFind_foldl_dictSet]
  cases hfind : (tables.flatten.filterMap rowPair).reverse.find? (fun kv => kv.1 == k) with
  | some kv => rfl
  | none => rfl

/-- Lines 308-310 of `scrape_detail_page`: the proof-of-debt deadline is
synthesized from the generic "Time" and "Date" labels of the extracted
map, via `all_kv.get("Time", "")` and `all_kv.get("Date", "")`; the field
is present iff both lookups are non-empty. -/
def proof_of_debt_deadline (all_kv : List (String × String)) : Option String :=
  let pod_time := dictGetD all_kv "Time" ""
  let pod_date := dictGetD all_kv "Date" ""
  if pod_time ≠ "" ∧ pod_date ≠ "" then some (pod_time ++ " on " ++ pod_date)
  else none

/-- C7: the detail carries a proof-of-debt deadline iff the label→value map
holds non-empty values for both "Time" and "Date"; its value is then
"<time> on <date>"; and the spec's scenario — table rows `Time: 10:00am`
and `Date: 01/04/2026` — yields "10:00am on 01/04/2026". -/
theorem C7_proof_of_debt_deadline :
    (∀ m : List (String × String),
      (proof_of_debt_deadline m).isSome = true ↔
        ((∃ t, dictFind m "Time" = some t ∧ t ≠ "") ∧
         (∃ d, dictFind m "Date" = some d ∧ d ≠ ""))) ∧
    (∀ (m : List (String × String)) (t d : String),
      dictFind m "Time" = some t → t ≠ "" → dictFind m "Date" = some d → d ≠ "" →
        proof_of_debt_deadline m = some (t ++ " on " ++ d)) ∧
    proof_of_debt_deadline
        (extract_table_pairs [[["Time:", "10:00am"], ["Date:", "01/04/2026"]]]) =
      some "10:00am on 01/04/2026" := by
  refine ⟨fun m => ?_, fun m t d h1 h2 h3 h4 => ?_, by decide⟩
  · cases h1 : dictFind m "Time" with
    | none => simp [proof_of_debt_deadline, dictGetD, h1]
    | some t =>
      cases h2 : dictFind m "Date" with
      | none => simp [proof_of_debt_deadline, dictGetD, h1, h2]
      | some d =>
        by_cases ht : t = "" <;> by_cases hd : d = "" <;>
          simp [proof_of_debt_deadline, dictGetD, h1, h2, ht, hd]
  · simp [proof_of_debt_deadline, dictGetD, h1, h2, h3, h4]

theorem C7_proof_of_debt_deadline_witness :
    proof_of_debt_deadline [("Time", "10:00am"), ("Date", "01/04/2026")] =
      some ("10:00am" ++ " on " ++ "01/04/2026") :=
  C7_proof_of_debt_deadline.2.1 [("Time", "10:00am"), ("Date", "01/04/2026")]
    "10:00am" "01/04/2026" (by decide) (by decide) (by decide) (by decide)

/-- Python `s.lower()`, modelled character-wise (the texts involved are
ASCII). -/
def lowerString (s : String) : String :=
  String.mk (s.toList.map Char.toLower)

/-- An HTML node: an element with a tag name and children, or a text node
(BeautifulSoup `Tag` / `NavigableString`). -/
inductive HNode where
  | elem (tag : String) (children : List HNode)
  | text (s : String)

mutual

/-- The descendant text segments of a node, in document order. -/
def HNode.textSegments : HNode → List String
  | HNode.text s => [s]
  | HNode.elem _ cs => textSegmentsList cs

def textSegmentsList : List HNode → List String
  | [] => []
  | c :: cs => c.textSegments ++ textSegmentsList cs

end

/-- BeautifulSoup `get_text(strip=True)`: concatenate the stripped text segments (the
default separator is the empty string; blank segments vanish anyway). -/
def getTextStrip (n : HNode) : String :=
  String.join (n.textSegments.map pyStrip)

/-- BeautifulSoup `get_text()` with no arguments: concatenate the raw text segments. -/
def getTextRaw (n : HNode) : String :=
  String.join n.textSegments

/-- Is this node a Tag (as opposed to a string)? -/
def HNode.isElem : HNode → Bool
  | HNode.elem _ _ => true
  | HNode.text _ => false

/-- BeautifulSoup `parent.find_next_sibling()`: the first FOLLOWING sibling that is a Tag,
and its stripped text. -/
def nextTagText (rest : List HNode) : Option String :=
  (rest.find? HNode.isElem).map getTextStrip

/-- The regex `[Ss]pecial` of scrape_asic.py:326: it matches iff the text
contains "Special" or "special" — NOT full case-insensitive matching. -/
def matchesSpecialRegex (s : String) : Bool :=
  strContains s "Special" || strContains s "special"

/-- The matcher as the specification words it: the text contains the
substring "special" under case-insensitive matching. -/
def matchesSpecialCaseless (s : String) : Bool :=
  strContains (lowerString s) "special"

/-- The "append the sibling text when it qualifies" step of
scrape_asic.py:329-333: `txt = nxt.get_text(strip=True)` followed by
`if txt and len(txt) > 10`. -/
def sibContribution (sibText : Option String) : List String :=
  match sibText with
  | some t => if t ≠ "" ∧ t.length > 10 then [t] else []
  | none => []

mutual

/-- The walk of scrape_asic.py:325-333 at one node.  `sibText` is the
stripped text of the next Tag sibling of the node's PARENT (`none` at the
top level, where the parent is the document and has no sibling);
`ownNextSib` is the stripped text of the node's own next Tag sibling. -/
def specialNode (sibText ownNextSib : Option String) : HNode → List String
  | HNode.text s =>
    if matchesSpecialRegex s then sibContribution sibText else []
  | HNode.elem _ cs => specialList ownNextSib cs

def specialList (sibText : Option String) : List HNode → List String
  | [] => []
  | c :: rest => specialNode sibText (nextTagText rest) c ++ specialList sibText rest

end

/-- scrape_asic.py:325-334: the `special_instructions` field over the
content region's top-level nodes (`" ".join` of the collected texts; the
join of the empty list is already the empty string). -/
def special_instructions (contentChildren : List HNode) : String :=
  String.intercalate " " (specialList none contentChildren)

mutual

/-- The same walk with the matcher the specification claims
(case-insensitive), used to exhibit the divergence. -/
def claimedSpecialNode (sibText ownNextSib : Option String) : HNode → List String
  | HNode.text s =>
    if matchesSpecialCaseless s then sibContribution sibText else []
  | HNode.elem _ cs => claimedSpecialList ownNextSib cs

def claimedSpecialList (sibText : Option String) : List HNode → List String
  | [] => []
  | c :: rest =>
    claimedSpecialNode sibText (nextTagText rest) c ++ claimedSpecialList sibText rest

end

/-- The `special_instructions` field as the specification words it. -/
def claimedSpecialInstructions (contentChildren : List HNode) : String :=
  String.intercalate " " (claimedSpecialList none contentChildren)

/-- A detail-page content region whose trigger text is in upper case. -/
def specialCounterDoc : List HNode :=
  [HNode.elem "p" [HNode.text "SPECIAL INSTRUCTIONS"],
   HNode.elem "p" [HNode.text "Bring photo identification."]]

/-- C8 counterexample: the text node "SPECIAL INSTRUCTIONS" contains
"special" case-insensitively, so under the claimed matching the following
sibling's text would be collected — but the code's `[Ss]pecial` regex does
not match it, and the field comes out empty. -/
theorem C8_counterexample :
    special_instructions specialCounterDoc = "" ∧
    claimedSpecialInstructions specialCounterDoc = "Bring photo identification." ∧
    matchesSpecialCaseless "SPECIAL INSTRUCTIONS" = true ∧
    matchesSpecialRegex "SPECIAL INSTRUCTIONS" = false := by
  refine ⟨by decide, by decide, by decide, by decide⟩

mutual

/-- All (text-node content, parent's-next-Tag-sibling stripped text) pairs
below one node, in document order: the spec's "text node → structural
parent → immediately following sibling" enumeration. -/
def contextsNode (sibText ownNextSib : Option String) : HNode → List (String × Option String)
  | HNode.text s => [(s, sibText)]
  | HNode.elem _ cs => contextsList ownNextSib cs

def contextsList (sibText : Option String) : List HNode → List (String × Option String)
  | [] => []
  | c :: rest => contextsNode sibText (nextTagText rest) c ++ contextsList sibText rest

end

/-- The contribution a matched text node makes: its parent's following
sibling's stripped text, kept when non-empty and longer than 10
characters. -/
def contextContribution (p : String × Option String) : Option String :=
  if matchesSpecialRegex p.1 then
    match p.2 with
    | some t => if t ≠ "" ∧ t.length > 10 then some t else none
    | none => none
  else none

/-- The amended claim's reading of the field: enumerate every text node with
its parent's following sibling, keep the qualifying sibling texts of the
nodes matching `[Ss]pecial`, and join with spaces. -/
def amendedSpecialInstructions (contentChildren : List HNode) : String :=
  String.intercalate " "
    ((contextsList none contentChildren).filterMap contextContribution)

theorem sibContribution_eq (m : Bool) (sibText : Option String) :
    (if m then sibContribution sibText else []) =
      (if m then
        match sibText with
        | some t => if t ≠ "" ∧ t.length > 10 then some t else none
        | none => none
      else none).toList := by
  cases m with
  | false => rfl
  | true =>
    cases sibText with
    | none => rfl
    | some t =>
      by_cases h : t ≠ "" ∧ t.length > 10
      · simp [sibContribution, h]
      · simp [sibContribution, h]

mutual

theorem specialNode_eq_contexts :
    ∀ (sibText ownNextSib : Option String) (n : HNode),
      specialNode sibText ownNextSib n =
        (contextsNode sibText ownNextSib n).filterMap contextContribution
  | sibText, ownNextSib, HNode.text s => by
    rw [specialNode, contextsNode, List.filterMap_cons, List.filterMap_nil]
    rw [show contextContribution (s, sibText) =
        (if matchesSpecialRegex s then
          match sibText with
          | some t => if t ≠ "" ∧ t.length > 10 then some t else none
          | none => none
        else none) from rfl]
    rw [sibContribution_eq]
    cases hm : (if matchesSpecialRegex s then
        match sibText with
        | some t => if t ≠ "" ∧ t.length > 10 then some t else none
        | none => none
      else none) with
    | none => rfl
    | some t0 => rfl
  | sibText, ownNextSib, HNode.elem tag cs => by
    rw [specialNode, contextsNode]
    exact specialList_eq_contexts ownNextSib cs

theorem specialList_eq_contexts :
    ∀ (sibText : Option String) (ns : List HNode),
      specialList sibText ns =
        (contextsList sibText ns).filterMap contextContribution
  | sibText, [] => rfl
  | sibText, c :: rest => by
    rw [specialList, contextsList, List.filterMap_append]
    rw [specialNode_eq_contexts sibText (nextTagText rest) c,
      specialList_eq_contexts sibText rest]

end

/-- C8 amended: `special_instructions` is the space-joined concatenation,
over every text node matching the regex `[Ss]pecial` (so "special" with a
lower- or upper-case initial letter, NOT full case-insensitive matching),
of the parent's next Tag sibling's stripped text when longer than 10
characters, and the empty string when nothing qualifies. -/
theorem C8_special_instructions_amended :
    ∀ contentChildren : List HNode,
      special_instructions contentChildren =
        amendedSpecialInstructions contentChildren := by
  intro contentChildren
  rw [special_instructions, amendedSpecialInstructions, specialList_eq_contexts]


/-- Python `s.split(sep)` for non-empty `sep`, on character lists, with a
fuel argument (one unit per character suffices) so the definition stays
structurally recursive. -/
def splitOnAuxL : Nat → List Char → List Char → List (List Char)
  | _, [], _ => [[]]
  | 0, cs, _ => [cs]
  | Nat.succ fuel, h :: t, sep =>
    if startsWithList (h :: t) sep ∧ sep ≠ [] then
      [] :: splitOnAuxL fuel (List.drop (sep.length - 1) t) sep
    else
      match splitOnAuxL fuel t sep with
      | [] => [[h]]
      | g :: gs => (h :: g) :: gs

/-- Python `s.split(sep)` (non-empty separator). -/
def pySplit (s sep : String) : List String :=
  (splitOnAuxL s.length s.toList sep.toList).map String.mk

/-- Is this node an element with the given tag name? -/
def isTag (t : String) : HNode → Bool
  | HNode.elem tg _ => tg == t
  | HNode.text _ => false

/-- The children of a node (a text node has none). -/
def HNode.childrenOf : HNode → List HNode
  | HNode.elem _ cs => cs
  | HNode.text _ => []

mutual

/-- BeautifulSoup `node.find("span")` descent: the first `span` element, document order. -/
def findSpanNode : HNode → Option HNode
  | HNode.text _ => none
  | HNode.elem t cs => if t == "span" then some (HNode.elem t cs) else findSpanList cs

def findSpanList : List HNode → Option HNode
  | [] => none
  | c :: cs =>
    match findSpanNode c with
    | some n => some n
    | none => findSpanList cs

end

/-- The dt/dd walk of scrape_asic.py:212-217: zip the definition list's
`dt` and `dd` children, normalize each label by stripping trailing colons,
and keep the last "ACN" and "Status" values (first component: ACN; second:
Status).  The source's recursive `find_all` coincides with the
direct-children filter on the flat markup modelled here. -/
def dlFields (dlChildren : List HNode) : String × String :=
  ((dlChildren.filter (isTag "dt")).zip (dlChildren.filter (isTag "dd"))).foldl
    (fun acc p =>
      let k := rstripColons (getTextStrip p.1)
      let v := getTextStrip p.2
      if k == "ACN" then (v, acc.2)
      else if k == "Status" then (acc.1, v)
      else acc)
    ("", "")

/-- Python `"trading as" in span.get_text().lower()`. -/
def matchesTradingAs (s : String) : Bool :=
  strContains (lowerString s) "trading as"

/-- scrape_asic.py:222-229: the company name is the preceding paragraph's
stripped text; the name/alias split happens only when the paragraph holds a
`span` whose raw text contains "trading as" case-insensitively AND the
paragraph's stripped text splits into exactly two parts around the literal
lowercase "trading as". -/
def nameAndTradingAs (prev : Option HNode) : String × String :=
  match prev with
  | none => ("", "")
  | some p =>
    let nm := getTextStrip p
    let spanOk :=
      match findSpanList p.childrenOf with
      | some sp => matchesTradingAs (getTextRaw sp)
      | none => false
    if spanOk then
      match pySplit nm "trading as" with
      | [a, b] => (pyStrip a, pyStrip b)
      | _ => (nm, "")
    else (nm, "")

/-- The company loop of scrape_asic.py:211-232 over a flat listing block:
`before` is the reversed prefix of siblings already passed, so
`before.find?` is `find_previous_sibling` (which coincides with the
`find_previous` fallback in a flat block); a company is kept only when its
ACN is non-empty. -/
def blockCompaniesGo (before : List HNode) : List HNode → List Company
  | [] => []
  | c :: rest =>
    if isTag "dl" c then
      let fields := dlFields c.childrenOf
      let nta := nameAndTradingAs (before.find? (isTag "p"))
      (if fields.1 ≠ "" then
        [{ name := nta.1, trading_as := nta.2, acn := fields.1, status := fields.2 }]
      else []) ++ blockCompaniesGo (c :: before) rest
    else blockCompaniesGo (c :: before) rest

/-- The companies extracted from one listing block's children. -/
def blockCompanies (children : List HNode) : List Company :=
  blockCompaniesGo [] children

/-- The nearest preceding paragraph of the specification's wording: the
LAST `p` element among the siblings before the definition list, read off
the in-order document prefix. -/
def lastParagraph (docBefore : List HNode) : Option HNode :=
  docBefore.reverse.find? (isTag "p")

/-- The company loop as the amended claim words it, carrying the in-order
document prefix and pairing each `dl` with its nearest preceding
paragraph. -/
def claimedCompaniesGo (docBefore : List HNode) : List HNode → List Company
  | [] => []
  | c :: rest =>
    if isTag "dl" c then
      let fields := dlFields c.childrenOf
      let nta := nameAndTradingAs (lastParagraph docBefore)
      (if fields.1 ≠ "" then
        [{ name := nta.1, trading_as := nta.2, acn := fields.1, status := fields.2 }]
      else []) ++ claimedCompaniesGo (docBefore ++ [c]) rest
    else claimedCompaniesGo (docBefore ++ [c]) rest

/-- Company extraction as the amended claim words it. -/
def claimedBlockCompanies (children : List HNode) : List Company :=
  claimedCompaniesGo [] children

theorem blockCompaniesGo_eq_claimed (cs : List HNode) :
    ∀ before : List HNode,
      blockCompaniesGo before cs = claimedCompaniesGo before.reverse cs := by
  induction cs with
  | nil => intro before; rfl
  | cons c rest ih =>
    intro before
    rw [blockCompaniesGo, claimedCompaniesGo]
    have hlast : lastParagraph before.reverse = before.find? (isTag "p") := by
      rw [lastParagraph, List.reverse_reverse]
    have hrec : claimedCompaniesGo (before.reverse ++ [c]) rest =
        blockCompaniesGo (c :: before) rest := by
      rw [ih (c :: before), List.reverse_cons]
    rw [hlast, hrec]

/-- A definition list with ACN "123 456 789" and status "In Liquidation". -/
def acmeDl : HNode :=
  HNode.elem "dl"
    [HNode.elem "dt" [HNode.text "ACN:"],
     HNode.elem "dd" [HNode.text "123 456 789"],
     HNode.elem "dt" [HNode.text "Status:"],
     HNode.elem "dd" [HNode.text "In Liquidation"]]

/-- The spec's scenario paragraph, as plain text with no span markup. -/
def acmeBlockNoSpan : List HNode :=
  [HNode.elem "p" [HNode.text "Acme Solar Pty Ltd trading as AcmeSun"], acmeDl]

/-- The same block with the trading-as phrase inside a span. -/
def acmeBlockWithSpan : List HNode :=
  [HNode.elem "p"
     [HNode.text "Acme Solar Pty Ltd ",
      HNode.elem "span" [HNode.text "trading as AcmeSun"]],
   acmeDl]

/-- C9 counterexample: the paragraph "Acme Solar Pty Ltd trading as
AcmeSun" contains the literal phrase "trading as", yet with no `span`
element present the code performs no split — the whole text becomes the
company name and the trading-as alias stays empty. -/
theorem C9_counterexample :
    blockCompanies acmeBlockNoSpan =
      [{ name := "Acme Solar Pty Ltd trading as AcmeSun", trading_as := "",
         acn := "123 456 789", status := "In Liquidation" }] ∧
    strContains
      (getTextStrip (HNode.elem "p" [HNode.text "Acme Solar Pty Ltd trading as AcmeSun"]))
      "trading as" = true := by
  refine ⟨by decide, by decide⟩

/-- C9 amended: each definition list's company name is read from the
nearest preceding paragraph (the last `p` before it in the block), and the
name/alias split around "trading as" happens only when that paragraph
contains a `span` whose text holds the phrase case-insensitively (with the
paragraph text splitting in exactly two); a paragraph whose descendants lack
such a span never splits, and the spec's scenario block with the phrase
inside a span yields name "Acme Solar Pty Ltd", alias "AcmeSun", ACN
"123 456 789" and status "In Liquidation". -/
theorem C9_company_paragraph_amended :
    (∀ children : List HNode, blockCompanies children = claimedBlockCompanies children) ∧
    (∀ p : HNode, findSpanList p.childrenOf = none →
      nameAndTradingAs (some p) = (getTextStrip p, "")) ∧
    blockCompanies acmeBlockWithSpan =
      [{ name := "Acme Solar Pty Ltd", trading_as := "AcmeSun",
         acn := "123 456 789", status := "In Liquidation" }] := by
  refine ⟨fun children => blockCompaniesGo_eq_claimed children [], fun p hp => ?_, by decide⟩
  rw [nameAndTradingAs, hp]
  simp

theorem C9_company_paragraph_amended_witness :
    nameAndTradingAs (some (HNode.elem "p" [HNode.text "Acme Solar Pty Ltd trading as AcmeSun"])) =
      (getTextStrip (HNode.elem "p" [HNode.text "Acme Solar Pty Ltd trading as AcmeSun"]), "") :=
  C9_company_paragraph_amended.2.1
    (HNode.elem "p" [HNode.text "Acme Solar Pty Ltd trading as AcmeSun"]) rfl

end PoliMail
